import Mathlib

/-!
# Service-worker install hook (`sw.js`)

A shallow embedding of the `install` listener of `sw.js` and of the three
browser objects it talks to (`caches`, `console`, the lifecycle event).

The listener is asynchronous.  Its run is modelled as a deterministic function
of the answers of the browser (`Host`): whether `caches.open` fulfils, how
`cache.add` settles for each URL, and in which order the pending `cache.add`
calls settle.  Every effect is appended to a trace in the order it happens.
-/

namespace ServiceWorker

/-! ## Data model -/

abbrev Url := String

/-- Response bytes stored under a request URL. -/
abbrev Resp := String

/-- Reason of a rejected promise. -/
abbrev Err := String

/-- A cache region: finite map from request URL to response. -/
abbrev Region := Finmap (fun _ : Url => Resp)

/-- The `caches` object: finite map from region name to region. -/
abbrev CacheStorage := Finmap (fun _ : String => Region)

def CACHE_NAME : String := "iAttend-v1"

def urlsToCache : List Url :=
  [ "/static/css/app.css",
    "/static/icons/icon-192x192.png" ]

/-- Settled state of a promise. -/
inductive Settled where
  | fulfilled
  | rejected (reason : Err)
  deriving DecidableEq, Repr

/-- Observable effects of the listener, in the order they happen. -/
inductive Effect where
  /-- `self.skipWaiting()` is called. -/
  | skipWaiting
  /-- `caches.open(name)` is called. -/
  | cachesOpen (name : String)
  /-- `event.waitUntil(p)` is called. -/
  | waitUntil
  /-- `cache.add(url)` is called. -/
  | cacheAdd (url : Url)
  /-- The promise of `cache.add(url)` settles (`ok = true`: fulfilled). -/
  | addSettled (url : Url) (ok : Bool)
  /-- `console.warn(msg, err)` is called. -/
  | warn (msg : String) (err : Err)
  /-- The promise handed to `event.waitUntil` settles (`ok = true`: fulfilled). -/
  | installSettled (ok : Bool)
  deriving DecidableEq, Repr

/-- Answers of the browser during one install.  Every call of `cache.add` settles,
and how it settles is a function of its URL. -/
structure Host where
  /-- `none`: `caches.open` fulfils; `some e`: it rejects with `e`. -/
  openResult : Option Err
  /-- How `cache.add(url)` settles: the stored response, or the rejection reason. -/
  addResult : Url → Except Err Resp
  /-- Scheduler: the `k`-th number selects which pending `cache.add` settles `k`-th. -/
  sched : List Nat

/-- State outside the listener. -/
structure World where
  caches : CacheStorage
  /-- Calls received by `console.warn`: message and error argument. -/
  console : List (String × Err)
  trace : List Effect

def World.emit (w : World) (e : Effect) : World :=
  { w with trace := w.trace ++ [e] }

/-- The call `console.warn(msg, err)`. -/
def World.warn (w : World) (msg : String) (err : Err) : World :=
  { w with console := w.console ++ [(msg, err)], trace := w.trace ++ [Effect.warn msg err] }

/-! ## Browser cache API -/

/-- Modelled from the spec: the store half of the browser's `cache.add`, which is
not part of `sw.js`.  The region maps a URL to one response; storing under a URL
that has an entry overwrites it. -/
def Region.put (r : Region) (url : Url) (resp : Resp) : Region :=
  Finmap.insert url resp r

/-- The region called `name`; a region that does not exist has no entry. -/
def regionOf (cs : CacheStorage) (name : String) : Region :=
  (cs.lookup name).getD ∅

/-- Modelled from the spec: a fulfilled `caches.open(name)` of the browser
("opens, creating if necessary"). -/
def openRegion (cs : CacheStorage) (name : String) : CacheStorage :=
  match cs.lookup name with
  | some _ => cs
  | none => Finmap.insert name ∅ cs

/-- Settlement of `cache.add(url)` on the region `name`: fetch, then store. -/
def cacheAdd (name : String) (h : Host) (w : World) (url : Url) : World × Settled :=
  match h.addResult url with
  | .ok resp =>
    ({ w with caches := Finmap.insert name ((regionOf w.caches name).put url resp) w.caches,
              trace := w.trace ++ [Effect.addSettled url true] },
     Settled.fulfilled)
  | .error err => (w.emit (Effect.addSettled url false), Settled.rejected err)

/-! ## The listener -/

/-- Text of the template literal passed to `console.warn`. -/
def warnMessage (url : Url) : String :=
  "❌ Failed to cache " ++ url

/-- Settlement of `cache.add(url).catch(err => { console.warn(…, err); })`:
a rejection runs the handler, which returns normally. -/
def attempt (name : String) (h : Host) (w : World) (url : Url) : World × Settled :=
  match cacheAdd name h w url with
  | (w1, Settled.fulfilled) => (w1, Settled.fulfilled)
  | (w1, Settled.rejected err) => (w1.warn (warnMessage url) err, Settled.fulfilled)

/-- Order in which the pending calls settle: at each turn the scheduler picks
one of the calls that are still pending. -/
def completionOrder : List Url → List Nat → List Url
  | [], _ => []
  | u :: us, sched =>
    let i := sched.headD 0 % (us.length + 1)
    (u :: us).getD i u :: completionOrder ((u :: us).eraseIdx i) sched.tail
termination_by pending => pending.length
decreasing_by
  simp_wf
  rw [List.length_eraseIdx]
  split
  · simp
  · rename_i hn
    exact absurd (Nat.mod_lt _ (Nat.succ_pos _)) hn

/-- State of `Promise.all(ps)`. -/
structure Join where
  world : World
  /-- Number of promises of `ps` that have not settled. -/
  remaining : Nat
  /-- State of the promise returned by `Promise.all`; `none`: pending.  The
  `then` promise handed to `event.waitUntil` follows it. -/
  result : Option Settled

/-- The call `Promise.all(ps)` with `n` promises: an empty array fulfils at once. -/
def Join.start (w : World) (n : Nat) : Join :=
  if n = 0 then ⟨w.emit (Effect.installSettled true), 0, some Settled.fulfilled⟩
  else ⟨w, n, none⟩

/-- One promise of `ps` settles: the first rejection rejects the join, the last
fulfilment fulfils it, a settled join stays as it is. -/
def Join.step (name : String) (h : Host) (j : Join) (url : Url) : Join :=
  match attempt name h j.world url with
  | (w1, out) =>
    match j.result with
    | some r => ⟨w1, j.remaining - 1, some r⟩
    | none =>
      match out with
      | Settled.rejected err =>
        ⟨w1.emit (Effect.installSettled false), j.remaining - 1, some (Settled.rejected err)⟩
      | Settled.fulfilled =>
        if j.remaining - 1 = 0 then
          ⟨w1.emit (Effect.installSettled true), 0, some Settled.fulfilled⟩
        else ⟨w1, j.remaining - 1, none⟩

/-- The `install` listener for a cache name and an asset list.  Returns the
world after the run and the state of the promise handed to `event.waitUntil`
(`none`: still pending). -/
def installHandler (name : String) (urls : List Url) (h : Host) (w : World) :
    World × Option Settled :=
  -- self.skipWaiting();
  let w := w.emit Effect.skipWaiting
  -- event.waitUntil(caches.open(CACHE_NAME).then(cache => …))
  let w := w.emit (Effect.cachesOpen name)
  let w := w.emit Effect.waitUntil
  match h.openResult with
  | some err =>
    -- the callback of `then` does not run; the `then` promise rejects with `err`
    (w.emit (Effect.installSettled false), some (Settled.rejected err))
  | none =>
    let w := { w with caches := openRegion w.caches name }
    -- urlsToCache.map(url => cache.add(url).catch(…)): one call per element, in list order
    let w := urls.foldl (fun w url => w.emit (Effect.cacheAdd url)) w
    -- Promise.all(…), then the calls settle in the order of the scheduler
    let j := (completionOrder urls h.sched).foldl (Join.step name h) (Join.start w urls.length)
    (j.world, j.result)

/-- The listener of `sw.js`. -/
def install (h : Host) (w : World) : World × Option Settled :=
  installHandler CACHE_NAME urlsToCache h w

/-- Effects produced by a run that starts in `w`. -/
def effects (name : String) (urls : List Url) (h : Host) (w : World) : List Effect :=
  (installHandler name urls h w).1.trace.drop w.trace.length

/-- Warnings logged by a run that starts in `w`. -/
def warnings (name : String) (urls : List Url) (h : Host) (w : World) : List (String × Err) :=
  (installHandler name urls h w).1.console.drop w.console.length

/-! ## Auxiliary definitions used to state what a run does -/

/-- World after the settlement of the attempt for `url`. -/
def settle (name : String) (h : Host) (w : World) (url : Url) : World :=
  (attempt name h w url).1

/-- Effects of the settlement of the attempt for `url`. -/
def settleEffects (h : Host) (url : Url) : List Effect :=
  match h.addResult url with
  | .ok _ => [Effect.addSettled url true]
  | .error err => [Effect.addSettled url false, Effect.warn (warnMessage url) err]

/-- The warning logged when the attempt for `url` settles, if any. -/
def warningOf (h : Host) (url : Url) : Option (String × Err) :=
  match h.addResult url with
  | .ok _ => none
  | .error err => some (warnMessage url, err)

/-- The cache storage after the settlement of the attempt for `url`. -/
def storeResult (name : String) (h : Host) (cs : CacheStorage) (url : Url) : CacheStorage :=
  match h.addResult url with
  | .ok resp => Finmap.insert name ((regionOf cs name).put url resp) cs
  | .error _ => cs

/-- The region after the settlement of the attempt for `url`. -/
def putResult (h : Host) (r : Region) (url : Url) : Region :=
  match h.addResult url with
  | .ok resp => r.put url resp
  | .error _ => r

/-- World at the moment all calls of `cache.add` have been issued. -/
def issued (name : String) (urls : List Url) (w : World) : World :=
  { caches := openRegion w.caches name,
    console := w.console,
    trace := w.trace ++ [Effect.skipWaiting, Effect.cachesOpen name, Effect.waitUntil]
      ++ urls.map Effect.cacheAdd }

/-- The URL of a call of `cache.add`. -/
def addedUrl : Effect → Option Url
  | Effect.cacheAdd u => some u
  | _ => none

/-- The URL of a call of `cache.add` that settles. -/
def settledUrl : Effect → Option Url
  | Effect.addSettled u _ => some u
  | _ => none

/-- The URLs for which a run that starts in `w` calls `cache.add`, in the order of
the calls: the attempts of the run. -/
def attempted (name : String) (urls : List Url) (h : Host) (w : World) : List Url :=
  (effects name urls h w).filterMap addedUrl

/-- The arguments of a call of `console.warn`. -/
def loggedWarning : Effect → Option (String × Err)
  | Effect.warn msg err => some (msg, err)
  | _ => none

/-- The name passed to a call of `caches.open`. -/
def openedName : Effect → Option String
  | Effect.cachesOpen n => some n
  | _ => none

/-! ## Concrete runs -/

/-- No cache region, nothing logged. -/
def emptyWorld : World := ⟨∅, [], []⟩

/-- A browser in which the style sheet cannot be fetched; the icon settles first. -/
def hostCssFails : Host :=
  { openResult := none
    addResult := fun u => if u = "/static/css/app.css" then .error "404" else .ok "bytes"
    sched := [1] }

/-- A browser in which every fetch succeeds. -/
def hostAllOk : Host :=
  { openResult := none
    addResult := fun _ => .ok "bytes"
    sched := [] }

/-- A browser that refuses to open the cache region. -/
def hostOpenFails : Host :=
  { openResult := some "QuotaExceededError"
    addResult := fun _ => .ok "bytes"
    sched := [] }

/-- A world with a second region, and with a stale style sheet and an unlisted page
in the region of the worker. -/
def stockedWorld : World :=
  { caches :=
      Finmap.insert "other-v1" (Region.put ∅ "/index.html" "home")
        (Finmap.insert CACHE_NAME
          ((Region.put ∅ "/offline.html" "page").put "/static/css/app.css" "stale") ∅)
    console := []
    trace := [] }

/-! ## The order of settlement -/

theorem perm_getD_eraseIdx : ∀ (l : List Url) (i : Nat) (d : Url), i < l.length →
    (l.getD i d :: l.eraseIdx i).Perm l
  | [], _, _, h => by simp at h
  | _ :: _, 0, _, _ => by simp
  | a :: l, i + 1, d, h => by
    have ih := perm_getD_eraseIdx l i d (by simpa using h)
    simp only [List.getD_cons_succ, List.eraseIdx_cons_succ]
    exact (List.Perm.swap a (l.getD i d) (l.eraseIdx i)).trans (ih.cons a)

theorem completionOrder_cons (u : Url) (us : List Url) (sched : List Nat) :
    completionOrder (u :: us) sched =
      (u :: us).getD (sched.headD 0 % (us.length + 1)) u ::
        completionOrder ((u :: us).eraseIdx (sched.headD 0 % (us.length + 1))) sched.tail := by
  rw [completionOrder]

theorem completionOrder_perm_aux : ∀ (n : Nat) (l : List Url) (sched : List Nat),
    l.length = n → (completionOrder l sched).Perm l
  | 0, l, sched, hl => by
    have : l = [] := List.length_eq_zero.mp hl
    subst this
    rw [completionOrder]
  | n + 1, [], _, hl => by simp at hl
  | n + 1, u :: us, sched, hl => by
    have hi : sched.headD 0 % (us.length + 1) < (u :: us).length :=
      Nat.mod_lt _ (Nat.succ_pos _)
    have hlen : ((u :: us).eraseIdx (sched.headD 0 % (us.length + 1))).length = n := by
      rw [List.length_eraseIdx, if_pos hi, hl]
      rfl
    rw [completionOrder_cons]
    exact ((completionOrder_perm_aux n _ sched.tail hlen).cons _).trans
      (perm_getD_eraseIdx _ _ _ hi)

/-- The calls settle in a permutation of the order in which they were issued. -/
theorem completionOrder_perm (l : List Url) (sched : List Nat) :
    (completionOrder l sched).Perm l :=
  completionOrder_perm_aux l.length l sched rfl

/-- Every permutation of the issued calls is the order of some scheduler. -/
theorem completionOrder_surj : ∀ (σ l : List Url), σ.Perm l →
    ∃ sched : List Nat, completionOrder l sched = σ
  | [], l, hp => by
    have : l = [] := (List.Perm.nil_eq hp).symm
    subst this
    exact ⟨[], by rw [completionOrder]⟩
  | a :: σ, [], hp => by
    exact absurd hp.symm (List.nil_perm.not.mpr (List.cons_ne_nil a σ))
  | a :: σ, u :: us, hp => by
    have ha : a ∈ u :: us := hp.subset (List.mem_cons_self a σ)
    have hi : List.indexOf a (u :: us) < (u :: us).length := List.indexOf_lt_length.mpr ha
    have hrest : σ.Perm ((u :: us).eraseIdx (List.indexOf a (u :: us))) := by
      rw [List.eraseIdx_indexOf_eq_erase]
      exact (hp.trans (List.perm_cons_erase ha)).cons_inv
    obtain ⟨s, hs⟩ := completionOrder_surj σ _ hrest
    refine ⟨List.indexOf a (u :: us) :: s, ?_⟩
    have hmod : List.indexOf a (u :: us) % (us.length + 1) = List.indexOf a (u :: us) :=
      Nat.mod_eq_of_lt hi
    rw [completionOrder_cons]
    simp only [List.headD_cons, List.tail_cons, hmod, hs]
    rw [List.getD_eq_getElem _ _ hi, List.getElem_indexOf]

/-! ## One settlement -/

theorem attempt_eq (name : String) (h : Host) (w : World) (u : Url) :
    attempt name h w u = (settle name h w u, Settled.fulfilled) := by
  unfold settle attempt cacheAdd
  cases h.addResult u <;> rfl

theorem settle_trace (name : String) (h : Host) (w : World) (u : Url) :
    (settle name h w u).trace = w.trace ++ settleEffects h u := by
  unfold settle attempt cacheAdd settleEffects
  cases h.addResult u <;> simp [World.emit, World.warn]

theorem settle_console (name : String) (h : Host) (w : World) (u : Url) :
    (settle name h w u).console = w.console ++ (warningOf h u).toList := by
  unfold settle attempt cacheAdd warningOf
  cases h.addResult u <;> simp [World.emit, World.warn]

theorem settle_caches (name : String) (h : Host) (w : World) (u : Url) :
    (settle name h w u).caches = storeResult name h w.caches u := by
  unfold settle attempt cacheAdd storeResult
  cases h.addResult u <;> simp [World.emit, World.warn]

/-! ## All settlements -/

theorem foldl_settle_trace (name : String) (h : Host) : ∀ (l : List Url) (w : World),
    (l.foldl (settle name h) w).trace = w.trace ++ l.flatMap (settleEffects h)
  | [], w => by simp
  | u :: l, w => by
    rw [List.foldl_cons, foldl_settle_trace name h l, settle_trace]
    simp

theorem foldl_settle_console (name : String) (h : Host) : ∀ (l : List Url) (w : World),
    (l.foldl (settle name h) w).console = w.console ++ l.filterMap (warningOf h)
  | [], w => by simp
  | u :: l, w => by
    rw [List.foldl_cons, foldl_settle_console name h l, settle_console]
    cases hw : warningOf h u <;> simp [List.filterMap_cons, hw]

theorem foldl_settle_caches (name : String) (h : Host) : ∀ (l : List Url) (w : World),
    (l.foldl (settle name h) w).caches = l.foldl (storeResult name h) w.caches
  | [], w => by simp
  | u :: l, w => by
    rw [List.foldl_cons, foldl_settle_caches name h l, settle_caches]
    rfl

/-! ## The join -/

theorem Join.step_pending (name : String) (h : Host) (j : Join) (u : Url)
    (hres : j.result = none) :
    Join.step name h j u =
      if j.remaining - 1 = 0 then
        ⟨(settle name h j.world u).emit (Effect.installSettled true), 0, some Settled.fulfilled⟩
      else ⟨settle name h j.world u, j.remaining - 1, none⟩ := by
  unfold Join.step
  rw [attempt_eq, hres]

theorem foldl_step_pending (name : String) (h : Host) : ∀ (l : List Url) (j : Join),
    l ≠ [] → j.result = none → j.remaining = l.length →
    l.foldl (Join.step name h) j =
      ⟨(l.foldl (settle name h) j.world).emit (Effect.installSettled true), 0,
        some Settled.fulfilled⟩
  | [], _, hne, _, _ => absurd rfl hne
  | [u], j, _, hres, hrem => by
    rw [List.foldl_cons, List.foldl_nil, Join.step_pending name h j u hres, hrem]
    simp
  | u :: v :: l, j, _, hres, hrem => by
    rw [List.foldl_cons, Join.step_pending name h j u hres, hrem]
    have hpos : ¬ ((u :: v :: l).length - 1 = 0) := by simp
    rw [if_neg hpos, foldl_step_pending name h (v :: l) _ (List.cons_ne_nil v l) rfl (by simp)]
    rfl

/-! ## The whole run -/

theorem foldl_emit_cacheAdd : ∀ (urls : List Url) (w : World),
    urls.foldl (fun w url => w.emit (Effect.cacheAdd url)) w =
      { w with trace := w.trace ++ urls.map Effect.cacheAdd }
  | [], w => by simp
  | u :: l, w => by
    rw [List.foldl_cons, foldl_emit_cacheAdd l]
    simp [World.emit]

/-- A run in which `caches.open` fulfils: every call settles, then the promise
handed to `event.waitUntil` fulfils. -/
theorem installHandler_opened (name : String) (urls : List Url) (h : Host) (w : World)
    (hopen : h.openResult = none) :
    installHandler name urls h w =
      (((completionOrder urls h.sched).foldl (settle name h) (issued name urls w)).emit
          (Effect.installSettled true),
        some Settled.fulfilled) := by
  have hw : urls.foldl (fun w url => w.emit (Effect.cacheAdd url))
      { ((w.emit Effect.skipWaiting).emit (Effect.cachesOpen name)).emit Effect.waitUntil with
        caches := openRegion
          (((w.emit Effect.skipWaiting).emit (Effect.cachesOpen name)).emit
            Effect.waitUntil).caches name } = issued name urls w := by
    rw [foldl_emit_cacheAdd]
    simp [World.emit, issued]
  unfold installHandler
  simp only [hopen, hw]
  cases hurls : urls with
  | nil =>
    have hc : completionOrder [] h.sched = [] := by rw [completionOrder]
    simp [hc, Join.start]
  | cons u us =>
    have hlen : (completionOrder (u :: us) h.sched).length = (u :: us).length :=
      (completionOrder_perm _ _).length_eq
    have hne : completionOrder (u :: us) h.sched ≠ [] := by
      intro h0
      rw [h0] at hlen
      simp at hlen
    have hstart : Join.start (issued name (u :: us) w) (u :: us).length =
        ⟨issued name (u :: us) w, (u :: us).length, none⟩ := by
      simp [Join.start]
    rw [hstart, foldl_step_pending name h _ _ hne rfl hlen.symm]

/-- A run in which `caches.open` rejects. -/
theorem installHandler_failed (name : String) (urls : List Url) (h : Host) (w : World)
    (err : Err) (hopen : h.openResult = some err) :
    installHandler name urls h w =
      ({ w with trace := w.trace ++ [Effect.skipWaiting, Effect.cachesOpen name,
          Effect.waitUntil, Effect.installSettled false] },
        some (Settled.rejected err)) := by
  unfold installHandler
  simp [hopen, World.emit]

/-! ## The cache storage after a run -/

theorem insert_lookup_self {β : Type} (cs : Finmap (fun _ : String => β)) (n : String) (b : β)
    (hb : cs.lookup n = some b) : Finmap.insert n b cs = cs := by
  apply Finmap.ext_lookup
  intro x
  by_cases hx : x = n
  · subst hx
    rw [Finmap.lookup_insert, hb]
  · rw [Finmap.lookup_insert_of_ne _ hx]

theorem regionOf_insert (cs : CacheStorage) (name : String) (r : Region) :
    regionOf (Finmap.insert name r cs) name = r := by
  simp [regionOf, Finmap.lookup_insert]

theorem openRegion_eq (cs : CacheStorage) (name : String) :
    openRegion cs name = Finmap.insert name (regionOf cs name) cs := by
  unfold openRegion regionOf
  cases hl : cs.lookup name with
  | none => rfl
  | some r => simp [insert_lookup_self cs name r hl]

theorem storeResult_eq (name : String) (h : Host) (cs : CacheStorage) (u : Url) (r : Region)
    (hr : cs.lookup name = some r) :
    storeResult name h cs u = Finmap.insert name (putResult h r u) cs := by
  have hreg : regionOf cs name = r := by simp [regionOf, hr]
  unfold storeResult putResult
  cases h.addResult u with
  | ok resp => simp [hreg]
  | error e => simp [insert_lookup_self cs name r hr]

theorem foldl_storeResult_eq (name : String) (h : Host) :
    ∀ (l : List Url) (cs : CacheStorage) (r : Region), cs.lookup name = some r →
      l.foldl (storeResult name h) cs = Finmap.insert name (l.foldl (putResult h) r) cs
  | [], cs, r, hr => by simp [insert_lookup_self cs name r hr]
  | u :: l, cs, r, hr => by
    rw [List.foldl_cons, storeResult_eq name h cs u r hr,
      foldl_storeResult_eq name h l _ (putResult h r u) (Finmap.lookup_insert cs),
      Finmap.insert_insert]
    rfl

/-- The cache storage after a run in which `caches.open` fulfils. -/
theorem installHandler_caches (name : String) (urls : List Url) (h : Host) (w : World)
    (hopen : h.openResult = none) :
    (installHandler name urls h w).1.caches =
      Finmap.insert name
        ((completionOrder urls h.sched).foldl (putResult h) (regionOf w.caches name))
        w.caches := by
  rw [installHandler_opened name urls h w hopen]
  show ((completionOrder urls h.sched).foldl (settle name h) (issued name urls w)).caches = _
  rw [foldl_settle_caches]
  show (completionOrder urls h.sched).foldl (storeResult name h) (openRegion w.caches name) = _
  rw [openRegion_eq,
    foldl_storeResult_eq name h _ _ (regionOf w.caches name) (Finmap.lookup_insert w.caches),
    Finmap.insert_insert]

/-! ## The region after a run -/

theorem lookup_put_self (r : Region) (u : Url) (resp : Resp) :
    (r.put u resp).lookup u = some resp := by
  unfold Region.put
  exact Finmap.lookup_insert r

theorem lookup_put_ne (r : Region) (u k : Url) (resp : Resp) (hk : k ≠ u) :
    (r.put u resp).lookup k = r.lookup k := by
  unfold Region.put
  exact Finmap.lookup_insert_of_ne r hk

theorem lookup_putResult_ne (h : Host) (r : Region) (u k : Url) (hk : k ≠ u) :
    (putResult h r u).lookup k = r.lookup k := by
  unfold putResult
  cases h.addResult u with
  | ok resp => exact lookup_put_ne r u k resp hk
  | error e => rfl

/-- A key outside the settled calls keeps what it had. -/
theorem lookup_foldl_not_mem (h : Host) (k : Url) : ∀ (l : List Url) (r : Region),
    k ∉ l → (l.foldl (putResult h) r).lookup k = r.lookup k
  | [], _, _ => rfl
  | u :: l, r, hk => by
    have hku : k ≠ u := fun e => hk (e ▸ List.mem_cons_self u l)
    have hkl : k ∉ l := fun m => hk (List.mem_cons_of_mem u m)
    rw [List.foldl_cons, lookup_foldl_not_mem h k l _ hkl, lookup_putResult_ne h r u k hku]

/-- A key whose call is rejected keeps what it had. -/
theorem lookup_foldl_error (h : Host) (k : Url) (e : Err) (hk : h.addResult k = .error e) :
    ∀ (l : List Url) (r : Region), (l.foldl (putResult h) r).lookup k = r.lookup k
  | [], _ => rfl
  | u :: l, r => by
    rw [List.foldl_cons, lookup_foldl_error h k e hk l]
    by_cases hku : k = u
    · subst hku
      unfold putResult
      rw [hk]
    · exact lookup_putResult_ne h r u k hku

/-- A key whose call is fulfilled holds the fetched response, whatever settles later. -/
theorem lookup_foldl_ok (h : Host) (k : Url) (resp : Resp) (hk : h.addResult k = .ok resp) :
    ∀ (l : List Url) (r : Region), k ∈ l → (l.foldl (putResult h) r).lookup k = some resp
  | [], _, hm => by simp at hm
  | u :: l, r, hm => by
    rw [List.foldl_cons]
    by_cases hkl : k ∈ l
    · exact lookup_foldl_ok h k resp hk l _ hkl
    · have hku : k = u := by
        rcases List.mem_cons.mp hm with e | m
        · exact e
        · exact absurd m hkl
      subst hku
      rw [lookup_foldl_not_mem h k l _ hkl]
      unfold putResult
      rw [hk]
      exact lookup_put_self r k resp

/-- The region after the settlements depends on the set of settled calls only. -/
theorem foldl_putResult_congr (h : Host) (l₁ l₂ : List Url) (r : Region)
    (hmem : ∀ k, k ∈ l₁ ↔ k ∈ l₂) :
    l₁.foldl (putResult h) r = l₂.foldl (putResult h) r := by
  apply Finmap.ext_lookup
  intro k
  by_cases hk : k ∈ l₁
  · cases hres : h.addResult k with
    | ok resp =>
      rw [lookup_foldl_ok h k resp hres l₁ r hk,
        lookup_foldl_ok h k resp hres l₂ r ((hmem k).mp hk)]
    | error e =>
      rw [lookup_foldl_error h k e hres l₁ r, lookup_foldl_error h k e hres l₂ r]
  · rw [lookup_foldl_not_mem h k l₁ r hk,
      lookup_foldl_not_mem h k l₂ r (fun m => hk ((hmem k).mpr m))]

/-- Settling the same calls again changes nothing. -/
theorem foldl_putResult_idem (h : Host) (l₁ l₂ : List Url) (r : Region)
    (hmem : ∀ k, k ∈ l₂ → k ∈ l₁) :
    l₂.foldl (putResult h) (l₁.foldl (putResult h) r) = l₁.foldl (putResult h) r := by
  apply Finmap.ext_lookup
  intro k
  by_cases hk : k ∈ l₂
  · cases hres : h.addResult k with
    | ok resp =>
      rw [lookup_foldl_ok h k resp hres l₂ _ hk,
        lookup_foldl_ok h k resp hres l₁ r (hmem k hk)]
    | error e => rw [lookup_foldl_error h k e hres l₂]
  · rw [lookup_foldl_not_mem h k l₂ _ hk]

/-! ## The effects of a run -/

theorem effects_opened (name : String) (urls : List Url) (h : Host) (w : World)
    (hopen : h.openResult = none) :
    effects name urls h w =
      [Effect.skipWaiting, Effect.cachesOpen name, Effect.waitUntil]
        ++ urls.map Effect.cacheAdd
        ++ (completionOrder urls h.sched).flatMap (settleEffects h)
        ++ [Effect.installSettled true] := by
  unfold effects
  rw [installHandler_opened name urls h w hopen]
  show List.drop w.trace.length
    (((completionOrder urls h.sched).foldl (settle name h) (issued name urls w)).trace
      ++ [Effect.installSettled true]) = _
  rw [foldl_settle_trace]
  show List.drop w.trace.length
    (w.trace ++ [Effect.skipWaiting, Effect.cachesOpen name, Effect.waitUntil]
      ++ urls.map Effect.cacheAdd
      ++ (completionOrder urls h.sched).flatMap (settleEffects h)
      ++ [Effect.installSettled true]) = _
  simp only [List.append_assoc]
  exact List.drop_left _ _

theorem effects_failed (name : String) (urls : List Url) (h : Host) (w : World) (err : Err)
    (hopen : h.openResult = some err) :
    effects name urls h w =
      [Effect.skipWaiting, Effect.cachesOpen name, Effect.waitUntil,
        Effect.installSettled false] := by
  unfold effects
  rw [installHandler_failed name urls h w err hopen]
  exact List.drop_left _ _

theorem warnings_opened (name : String) (urls : List Url) (h : Host) (w : World)
    (hopen : h.openResult = none) :
    warnings name urls h w = (completionOrder urls h.sched).filterMap (warningOf h) := by
  unfold warnings
  rw [installHandler_opened name urls h w hopen]
  show List.drop w.console.length
    ((completionOrder urls h.sched).foldl (settle name h) (issued name urls w)).console = _
  rw [foldl_settle_console]
  exact List.drop_left _ _

theorem mem_settleEffects (h : Host) (u : Url) (e : Effect) (he : e ∈ settleEffects h u) :
    (∃ ok, e = Effect.addSettled u ok) ∨ (∃ err, e = Effect.warn (warnMessage u) err) := by
  revert he
  unfold settleEffects
  cases h.addResult u with
  | ok resp =>
    intro he
    simp only [List.mem_singleton] at he
    exact Or.inl ⟨true, he⟩
  | error err =>
    intro he
    simp only [List.mem_cons, List.mem_singleton, List.not_mem_nil, or_false] at he
    rcases he with he | he
    · exact Or.inl ⟨false, he⟩
    · exact Or.inr ⟨err, he⟩

theorem filterMap_addedUrl_issue (urls : List Url) :
    (urls.map Effect.cacheAdd).filterMap addedUrl = urls := by
  induction urls with
  | nil => rfl
  | cons u l ih => simp [List.filterMap_cons, addedUrl, ih]

theorem filterMap_addedUrl_settle (h : Host) (l : List Url) :
    (l.flatMap (settleEffects h)).filterMap addedUrl = [] := by
  induction l with
  | nil => rfl
  | cons u l ih =>
    rw [List.flatMap_cons, List.filterMap_append, ih]
    unfold settleEffects
    cases h.addResult u <;> rfl

theorem filterMap_settledUrl_issue (urls : List Url) :
    (urls.map Effect.cacheAdd).filterMap settledUrl = [] := by
  induction urls with
  | nil => rfl
  | cons u l ih => simp [List.filterMap_cons, settledUrl, ih]

theorem filterMap_settledUrl_settle (h : Host) (l : List Url) :
    (l.flatMap (settleEffects h)).filterMap settledUrl = l := by
  induction l with
  | nil => rfl
  | cons u l ih =>
    rw [List.flatMap_cons, List.filterMap_append, ih]
    unfold settleEffects
    cases h.addResult u <;> rfl

theorem mem_foldl_putResult (h : Host) (l : List Url) (r : Region) (k : Url) :
    k ∈ l.foldl (putResult h) r ↔ k ∈ r ∨ (k ∈ l ∧ ∃ resp, h.addResult k = .ok resp) := by
  by_cases hk : k ∈ l
  · cases hres : h.addResult k with
    | ok resp =>
      constructor
      · intro _
        exact Or.inr ⟨hk, resp, rfl⟩
      · intro _
        exact Finmap.mem_of_lookup_eq_some (lookup_foldl_ok h k resp hres l r hk)
    | error e =>
      rw [← Finmap.lookup_isSome, lookup_foldl_error h k e hres l r, Finmap.lookup_isSome]
      constructor
      · intro hm
        exact Or.inl hm
      · rintro (hm | ⟨_, resp, hresp⟩)
        · exact hm
        · cases hresp
  · rw [← Finmap.lookup_isSome, lookup_foldl_not_mem h k l r hk, Finmap.lookup_isSome]
    constructor
    · intro hm
      exact Or.inl hm
    · rintro (hm | ⟨hm, _⟩)
      · exact hm
      · exact absurd hm hk

theorem installHandler_lookup_ok (name : String) (urls : List Url) (h : Host) (w : World)
    (hopen : h.openResult = none) (u : Url) (hu : u ∈ urls) (resp : Resp)
    (hresp : h.addResult u = .ok resp) :
    (regionOf (installHandler name urls h w).1.caches name).lookup u = some resp := by
  rw [installHandler_caches name urls h w hopen, regionOf_insert]
  exact lookup_foldl_ok h u resp hresp _ _ ((completionOrder_perm urls h.sched).mem_iff.mpr hu)

theorem filterMap_loggedWarning_issue (urls : List Url) :
    (urls.map Effect.cacheAdd).filterMap loggedWarning = [] := by
  induction urls with
  | nil => rfl
  | cons u l ih => simp [List.filterMap_cons, loggedWarning, ih]

theorem filterMap_loggedWarning_settle (h : Host) (l : List Url) :
    (l.flatMap (settleEffects h)).filterMap loggedWarning = l.filterMap (warningOf h) := by
  induction l with
  | nil => rfl
  | cons u l ih =>
    rw [List.flatMap_cons, List.filterMap_append, ih]
    unfold settleEffects warningOf
    cases hr : h.addResult u <;> simp [List.filterMap_cons, loggedWarning, hr]

theorem filterMap_openedName_issue (urls : List Url) :
    (urls.map Effect.cacheAdd).filterMap openedName = [] := by
  induction urls with
  | nil => rfl
  | cons u l ih => simp [List.filterMap_cons, openedName, ih]

theorem filterMap_openedName_settle (h : Host) (l : List Url) :
    (l.flatMap (settleEffects h)).filterMap openedName = [] := by
  induction l with
  | nil => rfl
  | cons u l ih =>
    rw [List.flatMap_cons, List.filterMap_append, ih]
    unfold settleEffects
    cases h.addResult u <;> rfl

theorem installSettled_not_mem_settle (h : Host) (l : List Url) (ok : Bool) :
    Effect.installSettled ok ∉ l.flatMap (settleEffects h) := by
  intro hmem
  obtain ⟨u, _, hm⟩ := List.mem_flatMap.mp hmem
  rcases mem_settleEffects h u _ hm with ⟨b, he⟩ | ⟨e, he⟩
  · exact absurd he (by simp)
  · exact absurd he (by simp)

theorem warnings_perm (name : String) (urls : List Url) (h : Host) (w : World)
    (hopen : h.openResult = none) :
    (warnings name urls h w).Perm (urls.filterMap (warningOf h)) := by
  rw [warnings_opened name urls h w hopen]
  exact (completionOrder_perm urls h.sched).filterMap (warningOf h)

theorem length_filterMap_warningOf (h : Host) (l : List Url) :
    (l.filterMap (warningOf h)).length = l.countP (fun u => !(h.addResult u).toBool) := by
  induction l with
  | nil => rfl
  | cons u l ih =>
    unfold warningOf at ih ⊢
    cases hr : h.addResult u <;>
      simp [List.filterMap_cons, List.countP_cons, hr, ih, Except.toBool]

theorem keys_put_of_mem (r : Region) (u : Url) (resp : Resp) (hu : u ∈ r) :
    (r.put u resp).keys = r.keys := by
  ext k
  unfold Region.put
  rw [Finmap.mem_keys, Finmap.mem_insert, Finmap.mem_keys]
  constructor
  · rintro (hk | hk)
    · exact hk ▸ hu
    · exact hk
  · intro hk
    exact Or.inr hk

theorem putResult_sched (h : Host) (s : List Nat) :
    putResult { h with sched := s } = putResult h := rfl

theorem warningOf_sched (h : Host) (s : List Nat) :
    warningOf { h with sched := s } = warningOf h := rfl

/-- The region called `name` after a run, whatever `caches.open` does. -/
theorem installHandler_region (name : String) (urls : List Url) (h : Host) (w : World) :
    regionOf (installHandler name urls h w).1.caches name =
      match h.openResult with
      | none => (completionOrder urls h.sched).foldl (putResult h) (regionOf w.caches name)
      | some _ => regionOf w.caches name := by
  cases hopen : h.openResult with
  | none => rw [installHandler_caches name urls h w hopen, regionOf_insert]
  | some err => rw [installHandler_failed name urls h w err hopen]

theorem attempted_opened (name : String) (urls : List Url) (h : Host) (w : World)
    (hopen : h.openResult = none) : attempted name urls h w = urls := by
  unfold attempted
  rw [effects_opened name urls h w hopen]
  simp only [List.filterMap_append, filterMap_addedUrl_issue, filterMap_addedUrl_settle]
  simp [addedUrl]

theorem attempted_failed (name : String) (urls : List Url) (h : Host) (w : World) (err : Err)
    (hopen : h.openResult = some err) : attempted name urls h w = [] := by
  unfold attempted
  rw [effects_failed name urls h w err hopen]
  rfl

theorem warnings_failed (name : String) (urls : List Url) (h : Host) (w : World) (err : Err)
    (hopen : h.openResult = some err) : warnings name urls h w = [] := by
  unfold warnings
  rw [installHandler_failed name urls h w err hopen]
  exact List.drop_length _

/-- The warnings of a run are those of its attempts, whatever `caches.open` does. -/
theorem warnings_perm_attempted (name : String) (urls : List Url) (h : Host) (w : World) :
    (warnings name urls h w).Perm ((attempted name urls h w).filterMap (warningOf h)) := by
  have hcases : h.openResult = none ∨ ∃ err, h.openResult = some err := by
    cases h.openResult with
    | none => exact Or.inl rfl
    | some err => exact Or.inr ⟨err, rfl⟩
  rcases hcases with hopen | ⟨err, hopen⟩
  · rw [attempted_opened name urls h w hopen]
    exact warnings_perm name urls h w hopen
  · rw [attempted_failed name urls h w err hopen, warnings_failed name urls h w err hopen]
    exact List.Perm.refl _

theorem openResult_of_mem_attempted (name : String) (urls : List Url) (h : Host) (w : World)
    (a : Url) (ha : a ∈ attempted name urls h w) : h.openResult = none := by
  cases hopen : h.openResult with
  | none => rfl
  | some err =>
    rw [attempted_failed name urls h w err hopen] at ha
    cases ha

/-- The logged text after its sign and space is "failed to cache " and the URL, up
to the case of the letters. -/
theorem warnMessage_form (u : Url) :
    ((warnMessage u).data.drop 2).map Char.toLower =
      ("failed to cache " ++ u).data.map Char.toLower := by
  have h1 : (warnMessage u).data = "❌ ".data ++ ("Failed to cache ".data ++ u.data) := by
    unfold warnMessage
    rw [String.data_append]
    rfl
  have h2 : ("❌ ".data ++ ("Failed to cache ".data ++ u.data)).drop 2 =
      "Failed to cache ".data ++ u.data := rfl
  have h3 : "Failed to cache ".data.map Char.toLower =
      "failed to cache ".data.map Char.toLower := by decide
  rw [h1, h2, String.data_append, List.map_append, List.map_append, h3]

/-! ## The claims -/

/-- C1: whatever the outcomes of the per-URL calls, when the cache region opens the
promise handed to `waitUntil` fulfils, and the region then holds the fetched
response of every listed URL whose `cache.add` succeeded. -/
theorem install_tolerates_failures (name : String) (urls : List Url) (h : Host) (w : World)
    (hopen : h.openResult = none) :
    (installHandler name urls h w).2 = some Settled.fulfilled ∧
    ∀ u ∈ urls, ∀ resp, h.addResult u = .ok resp →
      (regionOf (installHandler name urls h w).1.caches name).lookup u = some resp := by
  exact ⟨by rw [installHandler_opened name urls h w hopen],
    fun u hu resp hresp => installHandler_lookup_ok name urls h w hopen u hu resp hresp⟩

theorem install_tolerates_failures_witness :
    hostCssFails.openResult = none ∧
    (install hostCssFails emptyWorld).2 = some Settled.fulfilled ∧
    ∀ u ∈ urlsToCache, ∀ resp, hostCssFails.addResult u = .ok resp →
      (regionOf (install hostCssFails emptyWorld).1.caches CACHE_NAME).lookup u = some resp :=
  ⟨rfl, install_tolerates_failures CACHE_NAME urlsToCache hostCssFails emptyWorld rfl⟩

/-- C2: when the cache region opens and `cache.add` succeeds for every listed URL,
the region afterwards has an entry under every listed URL, holding its response,
and its keys are the former keys and the listed URLs; for the asset list of
`sw.js` and a region that was empty, the keys are exactly the two listed URLs. -/
theorem install_all_succeed (name : String) (urls : List Url) (h : Host) (w : World)
    (hopen : h.openResult = none)
    (hall : ∀ u ∈ urls, ∃ resp, h.addResult u = .ok resp) :
    (∀ u ∈ urls, ∃ resp, h.addResult u = .ok resp ∧
      (regionOf (installHandler name urls h w).1.caches name).lookup u = some resp) ∧
    (regionOf (installHandler name urls h w).1.caches name).keys =
      (regionOf w.caches name).keys ∪ urls.toFinset ∧
    (urls = urlsToCache → regionOf w.caches name = ∅ →
      (regionOf (installHandler name urls h w).1.caches name).keys =
        {"/static/css/app.css", "/static/icons/icon-192x192.png"} ∧
      (regionOf (installHandler name urls h w).1.caches name).keys.card = 2) := by
  have hkeys : (regionOf (installHandler name urls h w).1.caches name).keys =
      (regionOf w.caches name).keys ∪ urls.toFinset := by
    rw [installHandler_caches name urls h w hopen, regionOf_insert]
    ext k
    rw [Finmap.mem_keys, mem_foldl_putResult, Finset.mem_union, Finmap.mem_keys,
      List.mem_toFinset, (completionOrder_perm urls h.sched).mem_iff]
    constructor
    · rintro (hm | ⟨hm, _⟩)
      · exact Or.inl hm
      · exact Or.inr hm
    · rintro (hm | hm)
      · exact Or.inl hm
      · exact Or.inr ⟨hm, hall k hm⟩
  refine ⟨?_, hkeys, ?_⟩
  · intro u hu
    obtain ⟨resp, hresp⟩ := hall u hu
    exact ⟨resp, hresp, installHandler_lookup_ok name urls h w hopen u hu resp hresp⟩
  · intro hurls hempty
    rw [hkeys, hempty, hurls]
    have hpair : (∅ : Region).keys ∪ urlsToCache.toFinset =
        {"/static/css/app.css", "/static/icons/icon-192x192.png"} := by
      simp [urlsToCache]
    rw [hpair]
    exact ⟨rfl, Finset.card_pair (by decide)⟩

theorem install_all_succeed_witness :
    hostAllOk.openResult = none ∧
    (∀ u ∈ urlsToCache, ∃ resp, hostAllOk.addResult u = .ok resp) ∧
    urlsToCache = urlsToCache ∧
    regionOf emptyWorld.caches CACHE_NAME = ∅ ∧
    (regionOf (install hostAllOk emptyWorld).1.caches CACHE_NAME).keys =
      {"/static/css/app.css", "/static/icons/icon-192x192.png"} ∧
    (regionOf (install hostAllOk emptyWorld).1.caches CACHE_NAME).keys.card = 2 :=
  ⟨rfl, fun _ _ => ⟨"bytes", rfl⟩, rfl, rfl,
    (install_all_succeed CACHE_NAME urlsToCache hostAllOk emptyWorld rfl
      (fun _ _ => ⟨"bytes", rfl⟩)).2.2 rfl rfl⟩

/-- C3: in an install in which the cache region opens, the URLs passed to
`cache.add`, in the order of the calls, are the asset list itself: one call per
listed URL, none for another URL, none repeated after a failure, none skipped. -/
theorem install_issues_each_once (name : String) (urls : List Url) (h : Host) (w : World)
    (hopen : h.openResult = none) :
    (effects name urls h w).filterMap addedUrl = urls ∧
    ∀ u, (effects name urls h w).count (Effect.cacheAdd u) = urls.count u := by
  have hlist : (effects name urls h w).filterMap addedUrl = urls := by
    rw [effects_opened name urls h w hopen]
    simp only [List.filterMap_append, filterMap_addedUrl_issue, filterMap_addedUrl_settle]
    simp [addedUrl]
  refine ⟨hlist, fun u => ?_⟩
  have hcount : ∀ l : List Effect,
      l.count (Effect.cacheAdd u) = (l.filterMap addedUrl).count u := by
    intro l
    induction l with
    | nil => rfl
    | cons e l ih =>
      cases e <;> simp [List.filterMap_cons, addedUrl, List.count_cons, ih]
  rw [hcount, hlist]

theorem install_issues_each_once_witness :
    hostCssFails.openResult = none ∧
    (effects CACHE_NAME urlsToCache hostCssFails emptyWorld).filterMap addedUrl = urlsToCache ∧
    ∀ u, (effects CACHE_NAME urlsToCache hostCssFails emptyWorld).count (Effect.cacheAdd u) =
      urlsToCache.count u :=
  ⟨rfl, install_issues_each_once CACHE_NAME urlsToCache hostCssFails emptyWorld rfl⟩

/-- C4: when `caches.open` rejects with `err`, the promise handed to `waitUntil`
rejects with `err`, no `cache.add` is called, no warning is logged and the cache
storage is left as it was. -/
theorem install_open_failure (name : String) (urls : List Url) (h : Host) (w : World)
    (err : Err) (hopen : h.openResult = some err) :
    (installHandler name urls h w).2 = some (Settled.rejected err) ∧
    effects name urls h w =
      [Effect.skipWaiting, Effect.cachesOpen name, Effect.waitUntil,
        Effect.installSettled false] ∧
    (∀ u, Effect.cacheAdd u ∉ effects name urls h w) ∧
    (∀ msg e, Effect.warn msg e ∉ effects name urls h w) ∧
    (installHandler name urls h w).1.console = w.console ∧
    (installHandler name urls h w).1.caches = w.caches := by
  have heff := effects_failed name urls h w err hopen
  refine ⟨?_, heff, ?_, ?_, ?_, ?_⟩
  · rw [installHandler_failed name urls h w err hopen]
  · intro u
    rw [heff]
    simp
  · intro msg e
    rw [heff]
    simp
  · rw [installHandler_failed name urls h w err hopen]
  · rw [installHandler_failed name urls h w err hopen]

theorem install_open_failure_witness :
    hostOpenFails.openResult = some "QuotaExceededError" ∧
    (install hostOpenFails emptyWorld).2 = some (Settled.rejected "QuotaExceededError") ∧
    effects CACHE_NAME urlsToCache hostOpenFails emptyWorld =
      [Effect.skipWaiting, Effect.cachesOpen CACHE_NAME, Effect.waitUntil,
        Effect.installSettled false] ∧
    (∀ u, Effect.cacheAdd u ∉ effects CACHE_NAME urlsToCache hostOpenFails emptyWorld) ∧
    (∀ msg e, Effect.warn msg e ∉ effects CACHE_NAME urlsToCache hostOpenFails emptyWorld) ∧
    (install hostOpenFails emptyWorld).1.console = emptyWorld.console ∧
    (install hostOpenFails emptyWorld).1.caches = emptyWorld.caches :=
  ⟨rfl, install_open_failure CACHE_NAME urlsToCache hostOpenFails emptyWorld
    "QuotaExceededError" rfl⟩

/-- C5: whatever `caches.open` and the per-URL calls do, the first effect of the
listener is `skipWaiting`; the opening of the cache region and all the calls of
`cache.add` of the run come after it, and it is not invoked a second time. -/
theorem install_skipWaiting_first (name : String) (urls : List Url) (h : Host) (w : World) :
    ∃ rest, effects name urls h w = Effect.skipWaiting :: rest ∧
      Effect.cachesOpen name ∈ rest ∧
      rest.filterMap addedUrl = (effects name urls h w).filterMap addedUrl ∧
      Effect.skipWaiting ∉ rest := by
  cases hopen : h.openResult with
  | some err =>
    refine ⟨[Effect.cachesOpen name, Effect.waitUntil, Effect.installSettled false],
      effects_failed name urls h w err hopen, by simp, ?_, by simp⟩
    rw [effects_failed name urls h w err hopen]
    rfl
  | none =>
    refine ⟨[Effect.cachesOpen name, Effect.waitUntil] ++ urls.map Effect.cacheAdd
        ++ (completionOrder urls h.sched).flatMap (settleEffects h)
        ++ [Effect.installSettled true], ?_, by simp, ?_, ?_⟩
    · rw [effects_opened name urls h w hopen]
      rfl
    · rw [effects_opened name urls h w hopen]
      rfl
    · intro hmem
      simp only [List.mem_append, List.mem_cons, List.mem_singleton, List.not_mem_nil,
        or_false, List.mem_map, List.mem_flatMap] at hmem
      rcases hmem with (((hm | hm) | ⟨u, _, hm⟩) | ⟨u, _, hm⟩) | hm
      · exact absurd hm (by simp)
      · exact absurd hm (by simp)
      · exact absurd hm (by simp)
      · rcases mem_settleEffects h u _ hm with ⟨ok, he⟩ | ⟨e, he⟩
        · exact absurd he (by simp)
        · exact absurd he (by simp)
      · exact absurd hm (by simp)

/-- C6: in an install in which the cache region opens, the promise handed to
`waitUntil` settles last and once: every listed call of `cache.add` has settled
before it, and every warning of a failed call has been logged before it. -/
theorem install_waits_for_all (name : String) (urls : List Url) (h : Host) (w : World)
    (hopen : h.openResult = none) :
    ∃ pre, effects name urls h w = pre ++ [Effect.installSettled true] ∧
      (pre.filterMap settledUrl).Perm urls ∧
      pre.filterMap loggedWarning = warnings name urls h w ∧
      ∀ ok, Effect.installSettled ok ∉ pre := by
  refine ⟨[Effect.skipWaiting, Effect.cachesOpen name, Effect.waitUntil]
      ++ urls.map Effect.cacheAdd
      ++ (completionOrder urls h.sched).flatMap (settleEffects h),
    effects_opened name urls h w hopen, ?_, ?_, ?_⟩
  · simp only [List.filterMap_append, filterMap_settledUrl_issue, filterMap_settledUrl_settle]
    simpa [settledUrl] using completionOrder_perm urls h.sched
  · rw [warnings_opened name urls h w hopen]
    simp only [List.filterMap_append, filterMap_loggedWarning_issue,
      filterMap_loggedWarning_settle]
    simp [loggedWarning]
  · intro ok hmem
    rcases List.mem_append.mp hmem with hm | hm
    · rcases List.mem_append.mp hm with hm | hm
      · simp at hm
      · simp at hm
    · exact installSettled_not_mem_settle h _ ok hm

theorem install_waits_for_all_witness :
    hostCssFails.openResult = none ∧
    ∃ pre, effects CACHE_NAME urlsToCache hostCssFails emptyWorld
        = pre ++ [Effect.installSettled true] ∧
      (pre.filterMap settledUrl).Perm urlsToCache ∧
      pre.filterMap loggedWarning = warnings CACHE_NAME urlsToCache hostCssFails emptyWorld ∧
      ∀ ok, Effect.installSettled ok ∉ pre :=
  ⟨rfl, install_waits_for_all CACHE_NAME urlsToCache hostCssFails emptyWorld rfl⟩

/-- C7: the warnings logged during one install are one per URL whose attempt (call
of `cache.add`) failed and none for a URL whose attempt succeeded; each reads
"❌ Failed to cache " followed by the URL that failed, which after its sign is
"failed to cache <url>" up to the case of the letters, and carries the error of that
URL's own attempt.  With two listed URLs, one whose attempt fails and one that
succeeds, and a region that was empty, one warning is logged and the region has one
entry, under the URL that succeeded. -/
theorem install_warnings (name : String) (urls : List Url) (h : Host) (w : World) :
    (∀ msg err, (msg, err) ∈ warnings name urls h w ↔
      ∃ u ∈ attempted name urls h w,
        h.addResult u = .error err ∧ msg = "❌ Failed to cache " ++ u) ∧
    (∀ msg err, (msg, err) ∈ warnings name urls h w →
      ∃ u ∈ urls, (msg.data.drop 2).map Char.toLower =
        ("failed to cache " ++ u).data.map Char.toLower) ∧
    (warnings name urls h w).length =
      (attempted name urls h w).countP (fun u => !(h.addResult u).toBool) ∧
    (warnings name urls h w).Perm ((attempted name urls h w).filterMap (warningOf h)) ∧
    (∀ a b err resp, urls.Perm [a, b] → a ∈ attempted name urls h w →
      h.addResult a = .error err → h.addResult b = .ok resp →
      regionOf w.caches name = ∅ →
      warnings name urls h w = [("❌ Failed to cache " ++ a, err)] ∧
      (regionOf (installHandler name urls h w).1.caches name).keys = {b} ∧
      (regionOf (installHandler name urls h w).1.caches name).keys.card = 1 ∧
      (regionOf (installHandler name urls h w).1.caches name).lookup b = some resp) := by
  have hperm := warnings_perm_attempted name urls h w
  have hiff : ∀ msg err, (msg, err) ∈ warnings name urls h w ↔
      ∃ u ∈ attempted name urls h w,
        h.addResult u = .error err ∧ msg = "❌ Failed to cache " ++ u := by
    intro msg err
    rw [hperm.mem_iff, List.mem_filterMap]
    constructor
    · rintro ⟨u, hu, hw⟩
      refine ⟨u, hu, ?_⟩
      revert hw
      unfold warningOf
      cases h.addResult u with
      | ok resp => intro hw; cases hw
      | error e =>
        intro hw
        cases hw
        exact ⟨rfl, rfl⟩
    · rintro ⟨u, hu, hres, hmsg⟩
      refine ⟨u, hu, ?_⟩
      unfold warningOf
      rw [hres, hmsg]
      rfl
  refine ⟨hiff, ?_, ?_, hperm, ?_⟩
  · intro msg err hmem
    obtain ⟨u, hu, _, hmsg⟩ := (hiff msg err).mp hmem
    have hopen := openResult_of_mem_attempted name urls h w u hu
    rw [attempted_opened name urls h w hopen] at hu
    refine ⟨u, hu, ?_⟩
    rw [hmsg]
    exact warnMessage_form u
  · rw [hperm.length_eq, length_filterMap_warningOf]
  · intro a b err resp hurls hatt ha hb hempty
    have hopen := openResult_of_mem_attempted name urls h w a hatt
    have hmem : ∀ k, k ∈ completionOrder urls h.sched ↔ k = a ∨ k = b := by
      intro k
      rw [(completionOrder_perm urls h.sched).mem_iff, hurls.mem_iff]
      simp
    have hkeys : (regionOf (installHandler name urls h w).1.caches name).keys = {b} := by
      rw [installHandler_caches name urls h w hopen, regionOf_insert, hempty]
      ext k
      rw [Finmap.mem_keys, mem_foldl_putResult, hmem, Finset.mem_singleton]
      constructor
      · rintro (hk | ⟨hk | hk, r, hr⟩)
        · exact absurd hk (Finmap.not_mem_empty)
        · rw [hk, ha] at hr
          cases hr
        · exact hk
      · intro hk
        exact Or.inr ⟨Or.inr hk, resp, hk ▸ hb⟩
    refine ⟨?_, hkeys, ?_, ?_⟩
    · have h1 : (warnings name urls h w).Perm [(warnMessage a, err)] := by
        refine (warnings_perm name urls h w hopen).trans
          ((hurls.filterMap (warningOf h)).trans ?_)
        simp [List.filterMap_cons, warningOf, ha, hb]
      exact List.perm_singleton.mp h1
    · rw [hkeys]
      rfl
    · exact installHandler_lookup_ok name urls h w hopen b
        (hurls.mem_iff.mpr (by simp)) resp hb

theorem install_warnings_witness :
    urlsToCache.Perm ["/static/css/app.css", "/static/icons/icon-192x192.png"] ∧
    "/static/css/app.css" ∈ attempted CACHE_NAME urlsToCache hostCssFails emptyWorld ∧
    hostCssFails.addResult "/static/css/app.css" = .error "404" ∧
    hostCssFails.addResult "/static/icons/icon-192x192.png" = .ok "bytes" ∧
    regionOf emptyWorld.caches CACHE_NAME = ∅ ∧
    warnings CACHE_NAME urlsToCache hostCssFails emptyWorld =
      [("❌ Failed to cache " ++ "/static/css/app.css", "404")] ∧
    (regionOf (install hostCssFails emptyWorld).1.caches CACHE_NAME).keys =
      {"/static/icons/icon-192x192.png"} ∧
    (regionOf (install hostCssFails emptyWorld).1.caches CACHE_NAME).keys.card = 1 ∧
    (regionOf (install hostCssFails emptyWorld).1.caches CACHE_NAME).lookup
      "/static/icons/icon-192x192.png" = some "bytes" :=
  have hatt : "/static/css/app.css" ∈
      attempted CACHE_NAME urlsToCache hostCssFails emptyWorld := by
    rw [attempted_opened CACHE_NAME urlsToCache hostCssFails emptyWorld rfl]
    decide
  ⟨List.Perm.refl _, hatt, by simp [hostCssFails], by simp [hostCssFails], rfl,
    (install_warnings CACHE_NAME urlsToCache hostCssFails emptyWorld).2.2.2.2
      "/static/css/app.css" "/static/icons/icon-192x192.png" "404" "bytes"
      (List.Perm.refl _) hatt (by simp [hostCssFails]) (by simp [hostCssFails]) rfl⟩

/-- C8: storing under a URL that has an entry overwrites that entry, keeps the
other entries and keeps the number of entries, and storing the same response twice
is storing it once; an install run a second time with the same outcome of
`caches.open` and the same per-URL outcomes and responses, in whatever order the
calls settle, leaves the cache storage as the first run left it. -/
theorem install_idempotent (name : String) (urls : List Url) (h : Host) (w : World)
    (sched2 : List Nat) :
    (∀ (r : Region) (u : Url) (resp : Resp), u ∈ r →
      (r.put u resp).lookup u = some resp ∧
      (∀ k, k ≠ u → (r.put u resp).lookup k = r.lookup k) ∧
      (r.put u resp).keys.card = r.keys.card) ∧
    (∀ (r : Region) (u : Url) (resp : Resp), (r.put u resp).put u resp = r.put u resp) ∧
    (installHandler name urls { h with sched := sched2 }
        (installHandler name urls h w).1).1.caches =
      (installHandler name urls h w).1.caches := by
  refine ⟨?_, ?_, ?_⟩
  · intro r u resp hu
    exact ⟨lookup_put_self r u resp, fun k hk => lookup_put_ne r u k resp hk,
      by rw [keys_put_of_mem r u resp hu]⟩
  · intro r u resp
    unfold Region.put
    exact Finmap.insert_insert r
  · have hcases : h.openResult = none ∨ ∃ err, h.openResult = some err := by
      cases h.openResult with
      | none => exact Or.inl rfl
      | some err => exact Or.inr ⟨err, rfl⟩
    rcases hcases with hopen | ⟨err, hopen⟩
    · have hopen2 : ({ h with sched := sched2 } : Host).openResult = none := hopen
      rw [installHandler_caches name urls _ (installHandler name urls h w).1 hopen2,
        installHandler_caches name urls h w hopen, regionOf_insert, Finmap.insert_insert,
        putResult_sched]
      show Finmap.insert name
        ((completionOrder urls sched2).foldl (putResult h)
          ((completionOrder urls h.sched).foldl (putResult h) (regionOf w.caches name)))
        w.caches = _
      rw [foldl_putResult_idem h _ _ _ (fun k hk =>
        (completionOrder_perm urls h.sched).mem_iff.mpr
          ((completionOrder_perm urls sched2).mem_iff.mp hk))]
    · have hopen2 : ({ h with sched := sched2 } : Host).openResult = some err := hopen
      rw [installHandler_failed name urls _ (installHandler name urls h w).1 err hopen2]

theorem install_idempotent_witness :
    "/static/css/app.css" ∈ Region.put ∅ "/static/css/app.css" "old" ∧
    ((Region.put ∅ "/static/css/app.css" "old").put "/static/css/app.css" "new").lookup
      "/static/css/app.css" = some "new" ∧
    ((Region.put ∅ "/static/css/app.css" "old").put "/static/css/app.css" "new").keys.card =
      (Region.put ∅ "/static/css/app.css" "old").keys.card ∧
    (install { hostCssFails with sched := [0] } (install hostCssFails emptyWorld).1).1.caches =
      (install hostCssFails emptyWorld).1.caches :=
  have hm : "/static/css/app.css" ∈ Region.put ∅ "/static/css/app.css" "old" :=
    Finmap.mem_insert.mpr (Or.inl rfl)
  have hput := (install_idempotent CACHE_NAME urlsToCache hostCssFails emptyWorld [0]).1
    (Region.put ∅ "/static/css/app.css" "old") "/static/css/app.css" "new" hm
  ⟨hm, hput.1, hput.2.2,
    (install_idempotent CACHE_NAME urlsToCache hostCssFails emptyWorld [0]).2.2⟩

/-- C9: the listener opens the region called `name` and no other; the other regions
are left as they were; in the region called `name` an entry under a key that is not
listed, or under a key whose call fails, is left as it was, and every key that had
an entry has one afterwards.  The listener of `sw.js` does so for 'iAttend-v1'. -/
theorem install_frame (name : String) (urls : List Url) (h : Host) (w : World) :
    (∀ n, n ≠ name → (installHandler name urls h w).1.caches.lookup n = w.caches.lookup n) ∧
    (∀ k, k ∉ urls →
      (regionOf (installHandler name urls h w).1.caches name).lookup k =
        (regionOf w.caches name).lookup k) ∧
    (∀ k err, h.addResult k = .error err →
      (regionOf (installHandler name urls h w).1.caches name).lookup k =
        (regionOf w.caches name).lookup k) ∧
    (∀ k, k ∈ regionOf w.caches name →
      k ∈ regionOf (installHandler name urls h w).1.caches name) ∧
    (effects name urls h w).filterMap openedName = [name] ∧
    install h w = installHandler "iAttend-v1" urlsToCache h w := by
  refine ⟨?_, ?_, ?_, ?_, ?_, rfl⟩
  · intro n hn
    cases hopen : h.openResult with
    | none =>
      rw [installHandler_caches name urls h w hopen, Finmap.lookup_insert_of_ne _ hn]
    | some err => rw [installHandler_failed name urls h w err hopen]
  · intro k hk
    rw [installHandler_region]
    cases h.openResult with
    | none =>
      exact lookup_foldl_not_mem h k _ _
        (fun m => hk ((completionOrder_perm urls h.sched).mem_iff.mp m))
    | some err => rfl
  · intro k err hk
    rw [installHandler_region]
    cases h.openResult with
    | none => exact lookup_foldl_error h k err hk _ _
    | some err => rfl
  · intro k hk
    rw [installHandler_region]
    cases h.openResult with
    | none => exact (mem_foldl_putResult h _ _ k).mpr (Or.inl hk)
    | some err => exact hk
  · cases hopen : h.openResult with
    | none =>
      rw [effects_opened name urls h w hopen]
      simp only [List.filterMap_append, filterMap_openedName_issue,
        filterMap_openedName_settle]
      simp [openedName]
    | some err =>
      rw [effects_failed name urls h w err hopen]
      simp [openedName]

theorem install_frame_witness :
    "other-v1" ≠ CACHE_NAME ∧
    (install hostCssFails stockedWorld).1.caches.lookup "other-v1" =
      stockedWorld.caches.lookup "other-v1" ∧
    "/offline.html" ∉ urlsToCache ∧
    (regionOf (install hostCssFails stockedWorld).1.caches CACHE_NAME).lookup "/offline.html" =
      (regionOf stockedWorld.caches CACHE_NAME).lookup "/offline.html" ∧
    hostCssFails.addResult "/static/css/app.css" = .error "404" ∧
    (regionOf (install hostCssFails stockedWorld).1.caches CACHE_NAME).lookup
        "/static/css/app.css" =
      (regionOf stockedWorld.caches CACHE_NAME).lookup "/static/css/app.css" :=
  have hf := install_frame CACHE_NAME urlsToCache hostCssFails stockedWorld
  have hn : "other-v1" ≠ CACHE_NAME := by decide
  have hk : "/offline.html" ∉ urlsToCache := by decide
  have he : hostCssFails.addResult "/static/css/app.css" = .error "404" := by
    simp [hostCssFails]
  ⟨hn, hf.1 "other-v1" hn, hk, hf.2.1 "/offline.html" hk, he,
    hf.2.2.1 "/static/css/app.css" "404" he⟩

/-- C10: for fixed outcomes of `caches.open` and of the per-URL calls, two runs that
differ in the order in which the calls settle end with the same cache storage, the
same state of the promise handed to `waitUntil` and the same warnings up to their
order; every permutation of the asset list is the order of settlement of some run;
the URLs of the asset list of `sw.js` are pairwise distinct. -/
theorem install_order_independent (name : String) (urls : List Url) (h : Host) (w : World)
    (sched1 sched2 : List Nat) :
    (installHandler name urls { h with sched := sched1 } w).1.caches =
      (installHandler name urls { h with sched := sched2 } w).1.caches ∧
    (installHandler name urls { h with sched := sched1 } w).2 =
      (installHandler name urls { h with sched := sched2 } w).2 ∧
    (warnings name urls { h with sched := sched1 } w).Perm
      (warnings name urls { h with sched := sched2 } w) ∧
    (∀ p, p ∈ warnings name urls { h with sched := sched1 } w ↔
      p ∈ warnings name urls { h with sched := sched2 } w) ∧
    (∀ σ : List Url, σ.Perm urls → h.openResult = none →
      ∃ sched, (effects name urls { h with sched := sched } w).filterMap settledUrl = σ) ∧
    urlsToCache.Nodup := by
  have hcases : h.openResult = none ∨ ∃ err, h.openResult = some err := by
    cases h.openResult with
    | none => exact Or.inl rfl
    | some err => exact Or.inr ⟨err, rfl⟩
  have hsettled : ∀ sched, h.openResult = none →
      (effects name urls { h with sched := sched } w).filterMap settledUrl =
        completionOrder urls sched := by
    intro sched hopen
    have hopen1 : ({ h with sched := sched } : Host).openResult = none := hopen
    rw [effects_opened name urls _ w hopen1]
    simp only [List.filterMap_append, filterMap_settledUrl_issue, filterMap_settledUrl_settle]
    simp [settledUrl]
  have hwarn : (warnings name urls { h with sched := sched1 } w).Perm
      (warnings name urls { h with sched := sched2 } w) := by
    rcases hcases with hopen | ⟨err, hopen⟩
    · have hopen1 : ({ h with sched := sched1 } : Host).openResult = none := hopen
      have hopen2 : ({ h with sched := sched2 } : Host).openResult = none := hopen
      exact (warnings_perm name urls _ w hopen1).trans
        (warnings_perm name urls _ w hopen2).symm
    · have hopen1 : ({ h with sched := sched1 } : Host).openResult = some err := hopen
      have hopen2 : ({ h with sched := sched2 } : Host).openResult = some err := hopen
      unfold warnings
      rw [installHandler_failed name urls _ w err hopen1,
        installHandler_failed name urls _ w err hopen2]
  refine ⟨?_, ?_, hwarn, fun p => hwarn.mem_iff, ?_, by decide⟩
  · rcases hcases with hopen | ⟨err, hopen⟩
    · have hopen1 : ({ h with sched := sched1 } : Host).openResult = none := hopen
      have hopen2 : ({ h with sched := sched2 } : Host).openResult = none := hopen
      rw [installHandler_caches name urls _ w hopen1,
        installHandler_caches name urls _ w hopen2, putResult_sched, putResult_sched]
      show Finmap.insert name
          ((completionOrder urls sched1).foldl (putResult h) (regionOf w.caches name))
          w.caches =
        Finmap.insert name
          ((completionOrder urls sched2).foldl (putResult h) (regionOf w.caches name))
          w.caches
      rw [foldl_putResult_congr h (completionOrder urls sched1) (completionOrder urls sched2)
        _ (fun k => (completionOrder_perm urls sched1).mem_iff.trans
          (completionOrder_perm urls sched2).mem_iff.symm)]
    · have hopen1 : ({ h with sched := sched1 } : Host).openResult = some err := hopen
      have hopen2 : ({ h with sched := sched2 } : Host).openResult = some err := hopen
      rw [installHandler_failed name urls _ w err hopen1,
        installHandler_failed name urls _ w err hopen2]
  · rcases hcases with hopen | ⟨err, hopen⟩
    · have hopen1 : ({ h with sched := sched1 } : Host).openResult = none := hopen
      have hopen2 : ({ h with sched := sched2 } : Host).openResult = none := hopen
      rw [installHandler_opened name urls _ w hopen1,
        installHandler_opened name urls _ w hopen2]
    · have hopen1 : ({ h with sched := sched1 } : Host).openResult = some err := hopen
      have hopen2 : ({ h with sched := sched2 } : Host).openResult = some err := hopen
      rw [installHandler_failed name urls _ w err hopen1,
        installHandler_failed name urls _ w err hopen2]
  · intro σ hσ hopen
    obtain ⟨sched, hs⟩ := completionOrder_surj σ urls hσ
    exact ⟨sched, by rw [hsettled sched hopen, hs]⟩

theorem install_order_independent_witness :
    (install { hostCssFails with sched := [0] } stockedWorld).1.caches =
      (install { hostCssFails with sched := [1] } stockedWorld).1.caches ∧
    (warnings CACHE_NAME urlsToCache { hostCssFails with sched := [0] } stockedWorld).Perm
      (warnings CACHE_NAME urlsToCache { hostCssFails with sched := [1] } stockedWorld) ∧
    List.Perm ["/static/icons/icon-192x192.png", "/static/css/app.css"] urlsToCache ∧
    hostCssFails.openResult = none ∧
    ∃ sched, (effects CACHE_NAME urlsToCache { hostCssFails with sched := sched }
      stockedWorld).filterMap settledUrl =
        ["/static/icons/icon-192x192.png", "/static/css/app.css"] :=
  have hf := install_order_independent CACHE_NAME urlsToCache hostCssFails stockedWorld [0] [1]
  have hp : List.Perm ["/static/icons/icon-192x192.png", "/static/css/app.css"] urlsToCache :=
    List.Perm.swap _ _ _
  ⟨hf.1, hf.2.2.1, hp, rfl, hf.2.2.2.2.1 _ hp rfl⟩

end ServiceWorker
